import Mathlib

/-!
Verification of the portfolio-tracker analytic engines against their
natural-language specification.

The development shallowly embeds the three analytic engines of the
repository (`lib/portfolio.py`, `lib/technicals.py`, `lib/risk.py`) over
exact rationals.  Machine floating point is idealised as `ℚ`; the one
irrational primitive the code uses (the square root inside the Bollinger
standard deviation and the volatility aggregation) is either kept as an
abstract parameter or expressed with `Real.sqrt` in theorem statements.
Fallible code paths (Python exceptions) are modelled with `Option`.
-/

/-! ## Fee-aware pricing engine  (`lib/portfolio.py`) -/

/-- The fee schedule read from configuration (`config.fees()`): commission
rate, minimum commission, clearing-fee rate, trading-fee rate and a fixed
settlement fee. -/
structure FeeParams where
  commission_rate : ℚ
  min_commission : ℚ
  clearing_fee_rate : ℚ
  trading_fee_rate : ℚ
  settlement_fee : ℚ
deriving DecidableEq

/-- All five fee parameters are non-negative (the spec's validity
condition on `FeeScheduleParams`). -/
def FeeParams.NonNeg (f : FeeParams) : Prop :=
  0 ≤ f.commission_rate ∧ 0 ≤ f.min_commission ∧ 0 ≤ f.clearing_fee_rate ∧
    0 ≤ f.trading_fee_rate ∧ 0 ≤ f.settlement_fee

/-- The function `calc_tx_fee` (portfolio.py:6-9):
`max(amount*commission_rate, min_commission) + amount*clearing_fee_rate
 + amount*trading_fee_rate + settlement_fee`. -/
def calc_tx_fee (f : FeeParams) (amount : ℚ) : ℚ :=
  max (amount * f.commission_rate) f.min_commission
    + amount * f.clearing_fee_rate + amount * f.trading_fee_rate + f.settlement_fee

/-- Net proceeds of selling notional `a`: `a - calc_tx_fee(a)`
(the quantity `net` computed in each iteration of `breakeven_price`). -/
def netQ (f : FeeParams) (a : ℚ) : ℚ := a - calc_tx_fee f a

/-- The body of the `for _ in range(20)` loop of `breakeven_price`
(portfolio.py:24-30), with the iteration count as fuel.  Each pass
computes `sell_amt = target*shares`, `net = sell_amt - calc_tx_fee(sell_amt)`
and, while `net < total_buy_cost`, rescales `target *= total_buy_cost/net`.
Python raises `ZeroDivisionError` when `net` is exactly zero; that outcome
is modelled as `none`. -/
def beLoop (f : FeeParams) (shares total : ℚ) : ℕ → ℚ → Option ℚ
  | 0, target => some target
  | n + 1, target =>
      let sellAmt := target * shares
      let net := sellAmt - calc_tx_fee f sellAmt
      if net < total then
        if net = 0 then none
        else beLoop f shares total n (target * (total / net))
      else some target

/-- The function `breakeven_price` (portfolio.py:20-31): starting from `target = cost`,
iterate at most 20 times; `none` models the `ZeroDivisionError` raised
when an iterate's net proceeds are exactly zero. -/
def breakeven_price (f : FeeParams) (cost shares : ℚ) : Option ℚ :=
  let buy_amount := cost * shares
  let total_buy_cost := buy_amount + calc_tx_fee f buy_amount
  beLoop f shares total_buy_cost 20 cost

/-! ### Claim C3: fee monotonicity and the floor-regime formula -/

/-- C3: with non-negative fee parameters `calc_tx_fee` is non-decreasing
in the amount, and whenever `amount*commission_rate < min_commission` it
equals `min_commission + amount*(clearing_fee_rate + trading_fee_rate)
+ settlement_fee`. -/
theorem calc_tx_fee_monotone_and_floor (f : FeeParams) (a b : ℚ)
    (hf : f.NonNeg) (ha : 0 ≤ a) (hab : a ≤ b) :
    calc_tx_fee f a ≤ calc_tx_fee f b ∧
      (a * f.commission_rate < f.min_commission →
        calc_tx_fee f a =
          f.min_commission + a * (f.clearing_fee_rate + f.trading_fee_rate)
            + f.settlement_fee) := by
  obtain ⟨hc, hm, hcl, htr, hs⟩ := hf
  constructor
  · unfold calc_tx_fee
    have h1 : a * f.commission_rate ≤ b * f.commission_rate :=
      mul_le_mul_of_nonneg_right hab hc
    have h2 : a * f.clearing_fee_rate ≤ b * f.clearing_fee_rate :=
      mul_le_mul_of_nonneg_right hab hcl
    have h3 : a * f.trading_fee_rate ≤ b * f.trading_fee_rate :=
      mul_le_mul_of_nonneg_right hab htr
    have h4 : max (a * f.commission_rate) f.min_commission ≤
        max (b * f.commission_rate) f.min_commission :=
      max_le_max h1 le_rfl
    linarith
  · intro hfloor
    unfold calc_tx_fee
    rw [max_eq_right hfloor.le]
    ring

/-- Witness for C3 at the spec's scenario fee schedule, amounts 100 and 200
(both below the commission floor). -/
theorem calc_tx_fee_monotone_and_floor_witness :
    (⟨18/10000, 2725/100, 325/1000000, 75/1000000, 35/100⟩ : FeeParams).NonNeg ∧
      (0 : ℚ) ≤ 100 ∧ (100 : ℚ) ≤ 200 ∧
      (calc_tx_fee ⟨18/10000, 2725/100, 325/1000000, 75/1000000, 35/100⟩ 100 ≤
        calc_tx_fee ⟨18/10000, 2725/100, 325/1000000, 75/1000000, 35/100⟩ 200 ∧
      ((100 : ℚ) * (18/10000) < 2725/100 →
        calc_tx_fee ⟨18/10000, 2725/100, 325/1000000, 75/1000000, 35/100⟩ 100 =
          2725/100 + 100 * (325/1000000 + 75/1000000) + 35/100)) :=
  ⟨by norm_num [FeeParams.NonNeg], by norm_num, by norm_num,
    calc_tx_fee_monotone_and_floor _ 100 200 (by norm_num [FeeParams.NonNeg])
      (by norm_num) (by norm_num)⟩

/-! ### Convergence of the break-even iteration (claims C1, C2) -/

/-- The transaction fee is non-negative on non-negative notionals. -/
lemma calc_tx_fee_nonneg (f : FeeParams) (hf : f.NonNeg) {a : ℚ} (ha : 0 ≤ a) :
    0 ≤ calc_tx_fee f a := by
  obtain ⟨hc, hm, hcl, htr, hs⟩ := hf
  unfold calc_tx_fee
  have h1 : f.min_commission ≤ max (a * f.commission_rate) f.min_commission :=
    le_max_right _ _
  have h2 : 0 ≤ a * f.clearing_fee_rate := mul_nonneg ha hcl
  have h3 : 0 ≤ a * f.trading_fee_rate := mul_nonneg ha htr
  linarith

/-- Net sale proceeds are monotone in the notional when the three
proportional rates sum to at most one. -/
lemma netQ_mono (f : FeeParams) (hf : f.NonNeg)
    (hr : f.commission_rate + f.clearing_fee_rate + f.trading_fee_rate ≤ 1)
    {a b : ℚ} (hab : a ≤ b) : netQ f a ≤ netQ f b := by
  obtain ⟨hc, hm, hcl, htr, hs⟩ := hf
  unfold netQ calc_tx_fee
  have h2 : 0 ≤ (b - a) * f.commission_rate := mul_nonneg (by linarith) hc
  have h3 : max (b * f.commission_rate) f.min_commission ≤
      max (a * f.commission_rate) f.min_commission + (b - a) * f.commission_rate := by
    apply max_le
    · have : b * f.commission_rate =
          a * f.commission_rate + (b - a) * f.commission_rate := by ring
      rw [this]
      exact add_le_add_right (le_max_left _ _) _
    · exact le_trans (le_max_right _ _) (le_add_of_nonneg_right h2)
  have h4 : 0 ≤ (b - a) *
      (1 - f.commission_rate - f.clearing_fee_rate - f.trading_fee_rate) :=
    mul_nonneg (by linarith) (by linarith)
  nlinarith [h3, h4]

/-- One rescaling step starting and ending below the commission floor
reaches the break-even target. -/
lemma step_lower (f : FeeParams) (hf : f.NonNeg) {a T : ℚ}
    (ha : 0 < a) (hna : 0 < netQ f a) (hnaT : netQ f a < T)
    (hlow : (a * (T / netQ f a)) * f.commission_rate ≤ f.min_commission) :
    T ≤ netQ f (a * (T / netQ f a)) := by
  obtain ⟨hc, hm, hcl, htr, hs⟩ := hf
  set q := T / netQ f a with hqdef
  have hq1 : 1 < q := (one_lt_div hna).mpr hnaT
  have haq : a ≤ a * q := le_mul_of_one_le_right ha.le hq1.le
  have hlowa : a * f.commission_rate ≤ f.min_commission :=
    le_trans (mul_le_mul_of_nonneg_right haq hc) hlow
  have hqnet : q * netQ f a = T := by
    rw [hqdef]; exact div_mul_cancel₀ T (ne_of_gt hna)
  have hnet_a : netQ f a = a - (f.min_commission + a * f.clearing_fee_rate
      + a * f.trading_fee_rate + f.settlement_fee) := by
    unfold netQ calc_tx_fee
    rw [max_eq_right hlowa]
  have hnet_aq : netQ f (a * q) = a * q - (f.min_commission
      + (a * q) * f.clearing_fee_rate + (a * q) * f.trading_fee_rate
      + f.settlement_fee) := by
    unfold netQ calc_tx_fee
    rw [max_eq_right hlow]
  have hkey : netQ f (a * q) = q * netQ f a
      + (q - 1) * (f.min_commission + f.settlement_fee) := by
    rw [hnet_aq, hnet_a]; ring
  have hpos : 0 ≤ (q - 1) * (f.min_commission + f.settlement_fee) :=
    mul_nonneg (by linarith) (by linarith)
  rw [hkey, hqnet]; linarith

/-- One rescaling step starting at or above the commission floor reaches
the break-even target. -/
lemma step_upper (f : FeeParams) (hf : f.NonNeg) {a T : ℚ}
    (ha : 0 < a) (hna : 0 < netQ f a) (hnaT : netQ f a < T)
    (hup : f.min_commission ≤ a * f.commission_rate) :
    T ≤ netQ f (a * (T / netQ f a)) := by
  obtain ⟨hc, hm, hcl, htr, hs⟩ := hf
  set q := T / netQ f a with hqdef
  have hq1 : 1 < q := (one_lt_div hna).mpr hnaT
  have haq : a ≤ a * q := le_mul_of_one_le_right ha.le hq1.le
  have hupq : f.min_commission ≤ (a * q) * f.commission_rate :=
    le_trans hup (mul_le_mul_of_nonneg_right haq hc)
  have hqnet : q * netQ f a = T := by
    rw [hqdef]; exact div_mul_cancel₀ T (ne_of_gt hna)
  have hnet_a : netQ f a = a - (a * f.commission_rate + a * f.clearing_fee_rate
      + a * f.trading_fee_rate + f.settlement_fee) := by
    unfold netQ calc_tx_fee
    rw [max_eq_left hup]
  have hnet_aq : netQ f (a * q) = a * q - ((a * q) * f.commission_rate
      + (a * q) * f.clearing_fee_rate + (a * q) * f.trading_fee_rate
      + f.settlement_fee) := by
    unfold netQ calc_tx_fee
    rw [max_eq_left hupq]
  have hkey : netQ f (a * q) = q * netQ f a + (q - 1) * f.settlement_fee := by
    rw [hnet_aq, hnet_a]; ring
  have hpos : 0 ≤ (q - 1) * f.settlement_fee := mul_nonneg (by linarith) hs
  rw [hkey, hqnet]; linarith

/-- Unfolding equation of the loop body. -/
lemma beLoop_succ (f : FeeParams) (sh T : ℚ) (n : ℕ) (t : ℚ) :
    beLoop f sh T (n + 1) t =
      if netQ f (t * sh) < T then
        (if netQ f (t * sh) = 0 then none
         else beLoop f sh T n (t * (T / netQ f (t * sh))))
      else some t := rfl

/-- The loop halts and returns the current target as soon as net proceeds
reach the total buy-in cost. -/
lemma beLoop_stop (f : FeeParams) (sh T : ℚ) (n : ℕ) (t : ℚ)
    (h : T ≤ netQ f (t * sh)) : beLoop f sh T (n + 1) t = some t := by
  rw [beLoop_succ, if_neg (not_lt.mpr h)]

/-- Core soundness of `breakeven_price`: for positive cost basis and share
count, non-negative fee parameters whose proportional rates sum below one,
and positive net proceeds at the buy notional (the non-floor-dominated
regime), the iteration terminates via its break branch within the 20-pass
bound with a price at least the cost basis whose net sale proceeds cover
the total buy-in cost. -/
lemma breakeven_price_sound (f : FeeParams) (cost shares : ℚ) (hf : f.NonNeg)
    (hr : f.commission_rate + f.clearing_fee_rate + f.trading_fee_rate < 1)
    (hcost : 0 < cost) (hsh : 0 < shares)
    (hnet : 0 < netQ f (cost * shares)) :
    (breakeven_price f cost shares).elim False (fun P =>
      cost ≤ P ∧
        cost * shares + calc_tx_fee f (cost * shares) ≤ netQ f (P * shares)) := by
  obtain ⟨hc, hm, hcl, htr, hs⟩ := hf
  set T := cost * shares + calc_tx_fee f (cost * shares) with hT
  have hbp : breakeven_price f cost shares = beLoop f shares T 20 cost := rfl
  by_cases h0 : netQ f (cost * shares) < T
  case neg =>
    rw [hbp, beLoop_stop f shares T 19 cost (not_lt.mp h0)]
    exact ⟨le_refl cost, not_lt.mp h0⟩
  case pos =>
    have hne0 : netQ f (cost * shares) ≠ 0 := ne_of_gt hnet
    set t1 := cost * (T / netQ f (cost * shares)) with ht1
    have hstep0 : beLoop f shares T 20 cost = beLoop f shares T 19 t1 := by
      rw [beLoop_succ, if_pos h0, if_neg hne0]
    have hq0 : 1 < T / netQ f (cost * shares) :=
      (one_lt_div hnet).mpr h0
    have hct1 : cost ≤ t1 := le_mul_of_one_le_right hcost.le hq0.le
    have ha1 : t1 * shares = (cost * shares) * (T / netQ f (cost * shares)) := by
      rw [ht1]; ring
    have ha1pos : 0 < t1 * shares :=
      mul_pos (lt_of_lt_of_le hcost hct1) hsh
    have hnet1 : 0 < netQ f (t1 * shares) := by
      apply lt_of_lt_of_le hnet
      apply netQ_mono f ⟨hc, hm, hcl, htr, hs⟩ hr.le
      rw [ha1]
      exact le_mul_of_one_le_right (mul_pos hcost hsh).le hq0.le
    by_cases h1 : netQ f (t1 * shares) < T
    case neg =>
      rw [hbp, hstep0, beLoop_stop f shares T 18 t1 (not_lt.mp h1)]
      exact ⟨hct1, not_lt.mp h1⟩
    case pos =>
      have hne1 : netQ f (t1 * shares) ≠ 0 := ne_of_gt hnet1
      -- the first step cannot have stayed within a single linear piece,
      -- so the rescaled notional is above the commission floor
      have hu1 : f.min_commission ≤ (t1 * shares) * f.commission_rate := by
        rcases le_total ((t1 * shares) * f.commission_rate) f.min_commission
          with hlo | hup
        · exfalso
          have hlo' : (cost * shares * (T / netQ f (cost * shares)))
              * f.commission_rate ≤ f.min_commission := by
            rw [← ha1]; exact hlo
          have hT1 := step_lower f ⟨hc, hm, hcl, htr, hs⟩
            (mul_pos hcost hsh) hnet h0 hlo'
          rw [← ha1] at hT1
          exact absurd hT1 (not_le.mpr h1)
        · exact hup
      set t2 := t1 * (T / netQ f (t1 * shares)) with ht2
      have hstep1 : beLoop f shares T 19 t1 = beLoop f shares T 18 t2 := by
        rw [beLoop_succ, if_pos h1, if_neg hne1]
      have hq1 : 1 < T / netQ f (t1 * shares) := (one_lt_div hnet1).mpr h1
      have hct2 : cost ≤ t2 :=
        le_trans hct1 (le_mul_of_one_le_right (lt_of_lt_of_le hcost hct1).le hq1.le)
      have ha2 : t2 * shares = (t1 * shares) * (T / netQ f (t1 * shares)) := by
        rw [ht2]; ring
      have hfin : T ≤ netQ f (t2 * shares) := by
        rw [ha2]
        exact step_upper f ⟨hc, hm, hcl, htr, hs⟩ ha1pos hnet1 h1 hu1
      rw [hbp, hstep0, hstep1, beLoop_stop f shares T 17 t2 hfin]
      exact ⟨hct2, hfin⟩

/-- The fee schedule of the spec's worked scenario (commission 0.18% with a
27.25 floor, clearing 0.0325%, trading 0.0075%, settlement 0.35). -/
def scenarioFees : FeeParams :=
  ⟨18/10000, 2725/100, 325/1000000, 75/1000000, 35/100⟩

/-- C1: for positive cost basis and share count and standard
(non-floor-dominated) fee parameters — non-negative parameters whose
proportional rates sum below one and whose fees do not consume the whole
buy notional — the price returned by `breakeven_price` satisfies
`P*shares - calc_tx_fee(P*shares) ≥ cost*shares + calc_tx_fee(cost*shares)`
(selling all shares at the solved price recovers the buy-in cost including
buy-side fees; the bound holds exactly, not merely within tolerance). -/
theorem breakeven_price_covers_total_cost (f : FeeParams) (cost shares : ℚ)
    (hf : f.NonNeg)
    (hr : f.commission_rate + f.clearing_fee_rate + f.trading_fee_rate < 1)
    (hcost : 0 < cost) (hsh : 0 < shares)
    (hnet : calc_tx_fee f (cost * shares) < cost * shares) :
    (breakeven_price f cost shares).elim False (fun P =>
      cost * shares + calc_tx_fee f (cost * shares) ≤
        P * shares - calc_tx_fee f (P * shares)) := by
  have h := breakeven_price_sound f cost shares hf hr hcost hsh
    (by unfold netQ; linarith)
  cases hbp : breakeven_price f cost shares with
  | none => rw [hbp] at h; exact h
  | some P =>
    rw [hbp] at h
    simp only [Option.elim] at h ⊢
    have h2 := h.2
    unfold netQ at h2
    exact h2

/-- Witness for C1 at the spec's scenario: cost basis 54.59, 100 shares. -/
theorem breakeven_price_covers_total_cost_witness :
    scenarioFees.NonNeg ∧
      scenarioFees.commission_rate + scenarioFees.clearing_fee_rate
        + scenarioFees.trading_fee_rate < 1 ∧
      (0 : ℚ) < 5459/100 ∧ (0 : ℚ) < 100 ∧
      calc_tx_fee scenarioFees ((5459/100) * 100) < (5459/100) * 100 ∧
      (breakeven_price scenarioFees (5459/100) 100).elim False (fun P =>
        (5459/100) * 100 + calc_tx_fee scenarioFees ((5459/100) * 100) ≤
          P * 100 - calc_tx_fee scenarioFees (P * 100)) :=
  ⟨by norm_num [scenarioFees, FeeParams.NonNeg], by norm_num [scenarioFees],
    by norm_num, by norm_num,
    by norm_num [scenarioFees, calc_tx_fee, max_def],
    breakeven_price_covers_total_cost scenarioFees (5459/100) 100
      (by norm_num [scenarioFees, FeeParams.NonNeg])
      (by norm_num [scenarioFees]) (by norm_num) (by norm_num)
      (by norm_num [scenarioFees, calc_tx_fee, max_def])⟩

/-- Counterexample to C2 as stated: with the non-negative fee parameters
(0, 0, 0, 0, 1) and cost = shares = 1, the first iterate's net proceeds are
exactly zero, so the Python code raises `ZeroDivisionError` on
`total_buy_cost / net` (modelled as `none`) instead of returning a
positive price. -/
theorem breakeven_price_div_by_zero_counterexample :
    breakeven_price ⟨0, 0, 0, 0, 1⟩ 1 1 = none := by
  have htot : (1 : ℚ) * 1 + calc_tx_fee ⟨0, 0, 0, 0, 1⟩ (1 * 1) = 2 := by
    norm_num [calc_tx_fee]
  have hb : breakeven_price ⟨0, 0, 0, 0, 1⟩ 1 1
      = beLoop ⟨0, 0, 0, 0, 1⟩ 1 ((1 : ℚ) * 1 + calc_tx_fee ⟨0, 0, 0, 0, 1⟩ (1 * 1)) 20 1 :=
    rfl
  rw [hb, htot, show (20 : ℕ) = 19 + 1 from rfl, beLoop_succ]
  norm_num [netQ, calc_tx_fee]

/-- C2 amended: restricted to fee parameters whose proportional rates sum
below one and whose fees do not consume the whole buy notional,
`breakeven_price` evaluates without exception (never `none`, so no division
by zero occurs) and returns a strictly positive price, at least the cost
basis. -/
theorem breakeven_price_no_exception_pos (f : FeeParams) (cost shares : ℚ)
    (hf : f.NonNeg)
    (hr : f.commission_rate + f.clearing_fee_rate + f.trading_fee_rate < 1)
    (hcost : 0 < cost) (hsh : 0 < shares)
    (hnet : calc_tx_fee f (cost * shares) < cost * shares) :
    (breakeven_price f cost shares).elim False (fun P => 0 < P ∧ cost ≤ P) := by
  have h := breakeven_price_sound f cost shares hf hr hcost hsh
    (by unfold netQ; linarith)
  cases hbp : breakeven_price f cost shares with
  | none => rw [hbp] at h; exact h
  | some P =>
    rw [hbp] at h
    simp only [Option.elim] at h ⊢
    exact ⟨lt_of_lt_of_le hcost h.1, h.1⟩

/-- Witness for the amended C2 at the spec's scenario. -/
theorem breakeven_price_no_exception_pos_witness :
    scenarioFees.NonNeg ∧
      scenarioFees.commission_rate + scenarioFees.clearing_fee_rate
        + scenarioFees.trading_fee_rate < 1 ∧
      (0 : ℚ) < 5459/100 ∧ (0 : ℚ) < 100 ∧
      calc_tx_fee scenarioFees ((5459/100) * 100) < (5459/100) * 100 ∧
      (breakeven_price scenarioFees (5459/100) 100).elim False (fun P =>
        0 < P ∧ 5459/100 ≤ P) :=
  ⟨by norm_num [scenarioFees, FeeParams.NonNeg], by norm_num [scenarioFees],
    by norm_num, by norm_num,
    by norm_num [scenarioFees, calc_tx_fee, max_def],
    breakeven_price_no_exception_pos scenarioFees (5459/100) 100
      (by norm_num [scenarioFees, FeeParams.NonNeg])
      (by norm_num [scenarioFees]) (by norm_num) (by norm_num)
      (by norm_num [scenarioFees, calc_tx_fee, max_def])⟩

/-! ## Decimal rounding  (Python's `round(x, n)`, half-to-even) -/

/-- Round a rational to the nearest integer, ties to even (the semantics of
Python's builtin `round` on the value, decimal representation idealised). -/
def rheInt (x : ℚ) : ℤ :=
  if x - ⌊x⌋ < 1/2 then ⌊x⌋
  else if 1/2 < x - ⌊x⌋ then ⌊x⌋ + 1
  else if Even ⌊x⌋ then ⌊x⌋ else ⌊x⌋ + 1

/-- Python's `round(x, n)`: round to `n` decimal places, ties to even. -/
def pyRound (x : ℚ) (n : ℕ) : ℚ := (rheInt (x * 10 ^ n) : ℚ) / 10 ^ n

lemma rheInt_ge_floor (x : ℚ) : ⌊x⌋ ≤ rheInt x := by
  unfold rheInt; split_ifs <;> omega

lemma rheInt_le_floor_add_one (x : ℚ) : rheInt x ≤ ⌊x⌋ + 1 := by
  unfold rheInt; split_ifs <;> omega

lemma rheInt_mono {x y : ℚ} (h : x ≤ y) : rheInt x ≤ rheInt y := by
  rcases lt_or_le ⌊x⌋ ⌊y⌋ with hf | hf
  · have h1 := rheInt_le_floor_add_one x
    have h2 := rheInt_ge_floor y
    omega
  · have hfe : ⌊x⌋ = ⌊y⌋ := le_antisymm (Int.floor_le_floor h) hf
    unfold rheInt
    rw [hfe]
    have hr : x - (⌊y⌋ : ℚ) ≤ y - (⌊y⌋ : ℚ) := by linarith
    split_ifs <;> first | omega | linarith

lemma pyRound_mono {x y : ℚ} (n : ℕ) (h : x ≤ y) : pyRound x n ≤ pyRound y n := by
  unfold pyRound
  have h1 : rheInt (x * 10 ^ n) ≤ rheInt (y * 10 ^ n) :=
    rheInt_mono (mul_le_mul_of_nonneg_right h (by positivity))
  have h2 : (0 : ℚ) < 10 ^ n := by positivity
  exact (div_le_div_right h2).mpr (Int.cast_le.mpr h1)

/-! ## Maximum drawdown  (`calc_max_drawdown`, risk.py:53-74) -/

/-- The series `hist["Close"].dropna()` with the date index kept: positions of the
original series serve as date labels, missing closes are dropped. -/
def dropNaFrom (i : ℕ) : List (Option ℚ) → List (ℕ × ℚ)
  | [] => []
  | none :: t => dropNaFrom (i + 1) t
  | some v :: t => (i, v) :: dropNaFrom (i + 1) t

/-- The non-absent closes of a price series, labelled with their dates. -/
def dropNa (xs : List (Option ℚ)) : List (ℕ × ℚ) := dropNaFrom 0 xs

/-- Helper for the running maximum (`Series.cummax`). -/
def runningMaxAux (cur : ℚ) : List ℚ → List ℚ
  | [] => []
  | x :: t => max cur x :: runningMaxAux (max cur x) t

/-- The series `close.cummax()`: the running maximum of a list. -/
def runningMax : List ℚ → List ℚ
  | [] => []
  | x :: t => x :: runningMaxAux x t

/-- The series `drawdown = (close - cummax) / cummax`, labels preserved. -/
def mddDrawdown (xs : List (Option ℚ)) : List (ℕ × ℚ) :=
  List.zipWith (fun c m => (c.1, (c.2 - m) / m)) (dropNa xs)
    (runningMax ((dropNa xs).map Prod.snd))

/-- Accumulator step of `Series.idxmin` (first index attaining the
minimum value). -/
def minStep (acc : Option (ℕ × ℚ)) (p : ℕ × ℚ) : Option (ℕ × ℚ) :=
  match acc with
  | none => some p
  | some q => if p.2 < q.2 then some p else some q

/-- Accumulator step of `Series.idxmax` (first index attaining the
maximum value). -/
def maxStep (acc : Option (ℕ × ℚ)) (p : ℕ × ℚ) : Option (ℕ × ℚ) :=
  match acc with
  | none => some p
  | some q => if q.2 < p.2 then some p else some q

/-- Pandas `Series.idxmin` over a labelled list: first entry with minimal value. -/
def firstMinBy (l : List (ℕ × ℚ)) : Option (ℕ × ℚ) := l.foldl minStep none

/-- Pandas `Series.idxmax` over a labelled list: first entry with maximal value. -/
def firstMaxBy (l : List (ℕ × ℚ)) : Option (ℕ × ℚ) := l.foldl maxStep none

/-- Pandas `Series.min()` of a list of rationals (0 for the empty list, which the
guarded code never evaluates). -/
def listMinD : List ℚ → ℚ
  | [] => 0
  | x :: t => t.foldl min x

/-- The value `drawdown.idxmin()`: the trough entry (date, drawdown value). -/
def mddTrough (xs : List (Option ℚ)) : ℕ × ℚ :=
  (firstMinBy (mddDrawdown xs)).getD (0, 0)

/-- The value `close.loc[:trough_idx].idxmax()`: the peak entry (date, close value)
among closes dated at or before the trough. -/
def mddPeak (xs : List (Option ℚ)) : ℕ × ℚ :=
  (firstMaxBy ((dropNa xs).filter fun p => p.1 ≤ (mddTrough xs).1)).getD (0, 0)

/-- The function `calc_max_drawdown` (risk.py:53-74): `none` when fewer than two
non-absent closes remain, otherwise the rounded percentage minimum
drawdown together with the peak and trough dates. -/
def calc_max_drawdown (xs : List (Option ℚ)) : Option (ℚ × ℕ × ℕ) :=
  if (dropNa xs).length < 2 then none
  else some (pyRound (listMinD ((mddDrawdown xs).map Prod.snd) * 100) 2,
    (mddPeak xs).1, (mddTrough xs).1)

lemma foldl_minStep_spec (l : List (ℕ × ℚ)) (a : ℕ × ℚ) :
    ∃ p, l.foldl minStep (some a) = some p ∧ (p = a ∨ p ∈ l) ∧ p.2 ≤ a.2 ∧
      ∀ q ∈ l, p.2 ≤ q.2 := by
  induction l generalizing a with
  | nil => exact ⟨a, rfl, Or.inl rfl, le_refl _, by simp⟩
  | cons b t ih =>
    by_cases hb : b.2 < a.2
    · obtain ⟨p, hp, hmem, hle, hall⟩ := ih b
      refine ⟨p, ?_, ?_, le_trans hle hb.le, ?_⟩
      · rw [List.foldl_cons]
        simpa [minStep, hb] using hp
      · rcases hmem with h | h
        · exact Or.inr (h ▸ List.mem_cons_self b t)
        · exact Or.inr (List.mem_cons_of_mem b h)
      · intro q hq
        rcases List.mem_cons.mp hq with h | h
        · exact h ▸ hle
        · exact hall q h
    · obtain ⟨p, hp, hmem, hle, hall⟩ := ih a
      refine ⟨p, ?_, hmem.imp id (List.mem_cons_of_mem b), hle, ?_⟩
      · rw [List.foldl_cons]
        simpa [minStep, hb] using hp
      · intro q hq
        rcases List.mem_cons.mp hq with h | h
        · exact h ▸ le_trans hle (not_lt.mp hb)
        · exact hall q h

lemma firstMinBy_spec (l : List (ℕ × ℚ)) (hne : l ≠ []) :
    ∃ p, firstMinBy l = some p ∧ p ∈ l ∧ ∀ q ∈ l, p.2 ≤ q.2 := by
  cases l with
  | nil => exact absurd rfl hne
  | cons x t =>
    obtain ⟨p, hp, hmem, hle, hall⟩ := foldl_minStep_spec t x
    refine ⟨p, ?_, ?_, ?_⟩
    · unfold firstMinBy
      rw [List.foldl_cons]
      simpa [minStep] using hp
    · rcases hmem with h | h
      · exact h ▸ List.mem_cons_self x t
      · exact List.mem_cons_of_mem x h
    · intro q hq
      rcases List.mem_cons.mp hq with h | h
      · exact h ▸ hle
      · exact hall q h

lemma foldl_maxStep_spec (l : List (ℕ × ℚ)) (a : ℕ × ℚ) :
    ∃ p, l.foldl maxStep (some a) = some p ∧ (p = a ∨ p ∈ l) ∧ a.2 ≤ p.2 ∧
      ∀ q ∈ l, q.2 ≤ p.2 := by
  induction l generalizing a with
  | nil => exact ⟨a, rfl, Or.inl rfl, le_refl _, by simp⟩
  | cons b t ih =>
    by_cases hb : a.2 < b.2
    · obtain ⟨p, hp, hmem, hle, hall⟩ := ih b
      refine ⟨p, ?_, ?_, le_of_lt (lt_of_lt_of_le hb hle), ?_⟩
      · rw [List.foldl_cons]
        simpa [maxStep, hb] using hp
      · rcases hmem with h | h
        · exact Or.inr (h ▸ List.mem_cons_self b t)
        · exact Or.inr (List.mem_cons_of_mem b h)
      · intro q hq
        rcases List.mem_cons.mp hq with h | h
        · exact h ▸ hle
        · exact hall q h
    · obtain ⟨p, hp, hmem, hle, hall⟩ := ih a
      refine ⟨p, ?_, hmem.imp id (List.mem_cons_of_mem b), hle, ?_⟩
      · rw [List.foldl_cons]
        simpa [maxStep, hb] using hp
      · intro q hq
        rcases List.mem_cons.mp hq with h | h
        · exact h ▸ le_trans (not_lt.mp hb) hle
        · exact hall q h

lemma firstMaxBy_spec (l : List (ℕ × ℚ)) (hne : l ≠ []) :
    ∃ p, firstMaxBy l = some p ∧ p ∈ l ∧ ∀ q ∈ l, q.2 ≤ p.2 := by
  cases l with
  | nil => exact absurd rfl hne
  | cons x t =>
    obtain ⟨p, hp, hmem, hle, hall⟩ := foldl_maxStep_spec t x
    refine ⟨p, ?_, ?_, ?_⟩
    · unfold firstMaxBy
      rw [List.foldl_cons]
      simpa [maxStep] using hp
    · rcases hmem with h | h
      · exact h ▸ List.mem_cons_self x t
      · exact List.mem_cons_of_mem x h
    · intro q hq
      rcases List.mem_cons.mp hq with h | h
      · exact h ▸ hle
      · exact hall q h

lemma foldl_min_spec (l : List ℚ) (a : ℚ) :
    (l.foldl min a = a ∨ l.foldl min a ∈ l) ∧ l.foldl min a ≤ a ∧
      ∀ x ∈ l, l.foldl min a ≤ x := by
  induction l generalizing a with
  | nil => exact ⟨Or.inl rfl, le_refl _, by simp⟩
  | cons b t ih =>
    obtain ⟨hmem, hle, hall⟩ := ih (min a b)
    rw [List.foldl_cons]
    refine ⟨?_, le_trans hle (min_le_left a b), ?_⟩
    · rcases hmem with h | h
      · rcases min_choice a b with hab | hab
        · exact Or.inl (h.trans hab)
        · refine Or.inr ?_
          rw [h.trans hab]
          exact List.mem_cons_self b t
      · exact Or.inr (List.mem_cons_of_mem b h)
    · intro x hx
      rcases List.mem_cons.mp hx with h | h
      · rw [h]
        exact le_trans hle (min_le_right a b)
      · exact hall x h

lemma listMinD_spec (l : List ℚ) (hne : l ≠ []) :
    listMinD l ∈ l ∧ ∀ x ∈ l, listMinD l ≤ x := by
  cases l with
  | nil => exact absurd rfl hne
  | cons x t =>
    obtain ⟨hmem, hle, hall⟩ := foldl_min_spec t x
    have hdef : listMinD (x :: t) = t.foldl min x := rfl
    rw [hdef]
    refine ⟨?_, ?_⟩
    · rcases hmem with h | h
      · rw [h]
        exact List.mem_cons_self x t
      · exact List.mem_cons_of_mem x h
    · intro y hy
      rcases List.mem_cons.mp hy with h | h
      · rw [h]
        exact hle
      · exact hall y h

lemma length_runningMaxAux (cur : ℚ) (l : List ℚ) :
    (runningMaxAux cur l).length = l.length := by
  induction l generalizing cur with
  | nil => rfl
  | cons x t ih => simp [runningMaxAux, ih]

lemma length_runningMax (l : List ℚ) : (runningMax l).length = l.length := by
  cases l with
  | nil => rfl
  | cons x t => simp [runningMax, length_runningMaxAux]

lemma mem_mddDrawdown_label {xs : List (Option ℚ)} {p : ℕ × ℚ}
    (hp : p ∈ mddDrawdown xs) : ∃ c ∈ dropNa xs, c.1 = p.1 := by
  unfold mddDrawdown at hp
  generalize hl : dropNa xs = l at hp ⊢
  generalize hm : runningMax (l.map Prod.snd) = ms at hp
  clear hl hm
  induction l generalizing ms with
  | nil => simp at hp
  | cons c t ih =>
    cases ms with
    | nil => simp at hp
    | cons m mt =>
      rw [List.zipWith_cons_cons] at hp
      rcases List.mem_cons.mp hp with h | h
      · exact ⟨c, List.mem_cons_self c t, by rw [h]⟩
      · obtain ⟨c', hc', he⟩ := ih mt h
        exact ⟨c', List.mem_cons_of_mem c hc', he⟩

/-- C6: on a price history whose non-absent closes are positive,
`calc_max_drawdown` is absent exactly below 2 closes; otherwise it reports
the rounded percentage of the minimum running-maximum drawdown, the trough
date attains that minimum, and the peak date is an argmax of close among
dates at or before the trough. -/
theorem calc_max_drawdown_spec (xs : List (Option ℚ))
    (hpos : ∀ p ∈ dropNa xs, 0 < p.2) :
    ((dropNa xs).length < 2 → calc_max_drawdown xs = none) ∧
      (2 ≤ (dropNa xs).length →
        calc_max_drawdown xs =
            some (pyRound (listMinD ((mddDrawdown xs).map Prod.snd) * 100) 2,
              (mddPeak xs).1, (mddTrough xs).1) ∧
          mddTrough xs ∈ mddDrawdown xs ∧
          (mddTrough xs).2 = listMinD ((mddDrawdown xs).map Prod.snd) ∧
          (∀ p ∈ mddDrawdown xs, (mddTrough xs).2 ≤ p.2) ∧
          mddPeak xs ∈ dropNa xs ∧
          (mddPeak xs).1 ≤ (mddTrough xs).1 ∧
          (∀ p ∈ dropNa xs, p.1 ≤ (mddTrough xs).1 → p.2 ≤ (mddPeak xs).2)) := by
  constructor
  · intro h
    unfold calc_max_drawdown
    rw [if_pos h]
  · intro h2
    have hddlen : (mddDrawdown xs).length = (dropNa xs).length := by
      unfold mddDrawdown
      rw [List.length_zipWith, length_runningMax, List.length_map, min_self]
    have hddne : mddDrawdown xs ≠ [] := by
      have hlp : 0 < (mddDrawdown xs).length := by omega
      exact List.length_pos.mp hlp
    obtain ⟨tr, htr_eq, htr_mem, htr_min⟩ := firstMinBy_spec (mddDrawdown xs) hddne
    have htrough : mddTrough xs = tr := by
      unfold mddTrough
      rw [htr_eq, Option.getD_some]
    have hvalsne : (mddDrawdown xs).map Prod.snd ≠ [] := by
      intro h
      exact hddne (List.map_eq_nil_iff.mp h)
    obtain ⟨hmin_mem, hmin_le⟩ := listMinD_spec _ hvalsne
    have htr_mem' : mddTrough xs ∈ mddDrawdown xs := htrough ▸ htr_mem
    have heq : (mddTrough xs).2 = listMinD ((mddDrawdown xs).map Prod.snd) := by
      apply le_antisymm
      · obtain ⟨p, hp, hpe⟩ := List.mem_map.mp hmin_mem
        rw [htrough]
        exact hpe ▸ htr_min p hp
      · exact hmin_le _ (List.mem_map_of_mem Prod.snd htr_mem')
    obtain ⟨c0, hc0_mem, hc0_lab⟩ := mem_mddDrawdown_label htr_mem'
    have hfilne : (dropNa xs).filter (fun p => p.1 ≤ (mddTrough xs).1) ≠ [] := by
      have hc0f : c0 ∈ (dropNa xs).filter (fun p => p.1 ≤ (mddTrough xs).1) :=
        List.mem_filter.mpr ⟨hc0_mem, decide_eq_true (le_of_eq hc0_lab)⟩
      exact List.ne_nil_of_mem hc0f
    obtain ⟨pk, hpk_eq, hpk_mem, hpk_max⟩ := firstMaxBy_spec _ hfilne
    have hpeak : mddPeak xs = pk := by
      unfold mddPeak
      rw [hpk_eq, Option.getD_some]
    have hpk_dec := List.mem_filter.mp hpk_mem
    refine ⟨?_, htr_mem', heq, ?_, ?_, ?_, ?_⟩
    · unfold calc_max_drawdown
      rw [if_neg (not_lt.mpr h2)]
    · intro p hp
      rw [htrough]
      exact htr_min p hp
    · exact hpeak ▸ hpk_dec.1
    · rw [hpeak]
      exact of_decide_eq_true hpk_dec.2
    · intro p hp hple
      have hpf : p ∈ (dropNa xs).filter (fun q => q.1 ≤ (mddTrough xs).1) :=
        List.mem_filter.mpr ⟨hp, decide_eq_true hple⟩
      rw [hpeak]
      exact hpk_max p hpf

/-- Witness for C6 on the series 10, (missing), 5, 8. -/
theorem calc_max_drawdown_spec_witness :
    (∀ p ∈ dropNa [some 10, none, some 5, some 8], 0 < p.2) ∧
      (((dropNa [some 10, none, some 5, some 8]).length < 2 →
          calc_max_drawdown [some 10, none, some 5, some 8] = none) ∧
        (2 ≤ (dropNa [some 10, none, some 5, some 8]).length →
          calc_max_drawdown [some 10, none, some 5, some 8] =
              some (pyRound (listMinD ((mddDrawdown [some 10, none, some 5, some 8]).map Prod.snd) * 100) 2,
                (mddPeak [some 10, none, some 5, some 8]).1,
                (mddTrough [some 10, none, some 5, some 8]).1) ∧
            mddTrough [some 10, none, some 5, some 8] ∈
              mddDrawdown [some 10, none, some 5, some 8] ∧
            (mddTrough [some 10, none, some 5, some 8]).2 =
              listMinD ((mddDrawdown [some 10, none, some 5, some 8]).map Prod.snd) ∧
            (∀ p ∈ mddDrawdown [some 10, none, some 5, some 8],
              (mddTrough [some 10, none, some 5, some 8]).2 ≤ p.2) ∧
            mddPeak [some 10, none, some 5, some 8] ∈
              dropNa [some 10, none, some 5, some 8] ∧
            (mddPeak [some 10, none, some 5, some 8]).1 ≤
              (mddTrough [some 10, none, some 5, some 8]).1 ∧
            (∀ p ∈ dropNa [some 10, none, some 5, some 8],
              p.1 ≤ (mddTrough [some 10, none, some 5, some 8]).1 →
                p.2 ≤ (mddPeak [some 10, none, some 5, some 8]).2))) :=
  ⟨by norm_num [dropNa, dropNaFrom],
    calc_max_drawdown_spec [some 10, none, some 5, some 8]
      (by norm_num [dropNa, dropNaFrom])⟩

/-! ## Value at Risk  (`calc_var`, risk.py:77-93) -/

/-- Python's `int()` on a rational: truncation toward zero. -/
def pyInt (x : ℚ) : ℤ := if x < 0 then -⌊-x⌋ else ⌊x⌋

/-- Numpy's `np.percentile(xs, q)` with the default linear interpolation: sort,
take position `q/100*(n-1)`, and interpolate between the neighbouring
order statistics. -/
def percentile (xs : List ℚ) (q : ℚ) : ℚ :=
  let s := List.insertionSort (fun a b => a ≤ b) xs
  let n := s.length
  let pos := q * ((n : ℚ) - 1) / 100
  let i := (⌊pos⌋).toNat
  let j := min (i + 1) (n - 1)
  s.getD i 0 + (pos - ⌊pos⌋) * (s.getD j 0 - s.getD i 0)

/-- Assignment `d[k] = v` on a Python dict kept as an insertion-ordered
association list: an existing key is overwritten in place, a new key is
appended. -/
def dictInsert (d : List (ℤ × Option ℚ)) (k : ℤ) (v : Option ℚ) :
    List (ℤ × Option ℚ) :=
  if d.any (fun p => p.1 = k) then d.map (fun p => if p.1 = k then (k, v) else p)
  else d ++ [(k, v)]

/-- The function `calc_var` (risk.py:77-93).  The dict key `f"var_{int(cl*100)}"` is
modelled by the integer `int(cl*100)`; fewer than 10 returns yield `none`
values, otherwise each level maps to
`round(np.percentile(returns, (1-cl)*100) * 100, 4)`. -/
def calc_var (returns : List ℚ) (levels : List ℚ) : List (ℤ × Option ℚ) :=
  if returns.length < 10 then
    levels.foldl (fun d cl => dictInsert d (pyInt (cl * 100)) none) []
  else
    levels.foldl (fun d cl =>
      dictInsert d (pyInt (cl * 100))
        (some (pyRound (percentile returns ((1 - cl) * 100) * 100) 4))) []

/-- The default confidence levels `[0.95, 0.99]`. -/
def defaultConfidenceLevels : List ℚ := [19/20, 99/100]

lemma sorted_getD_mono {l : List ℚ} (hs : List.Sorted (fun a b => a ≤ b) l)
    {i j : ℕ} (hij : i ≤ j) (hj : j < l.length) : l.getD i 0 ≤ l.getD j 0 := by
  have hi : i < l.length := lt_of_le_of_lt hij hj
  rw [List.getD_eq_getElem l 0 hi, List.getD_eq_getElem l 0 hj]
  exact List.Sorted.rel_get_of_le hs hij

/-- Monotonicity of the linear-interpolation percentile in the requested
quantile. -/
lemma percentile_mono (xs : List ℚ) {q1 q2 : ℚ} (hn : 1 ≤ xs.length)
    (h0 : 0 ≤ q1) (h12 : q1 ≤ q2) (h100 : q2 ≤ 100) :
    percentile xs q1 ≤ percentile xs q2 := by
  have hs : List.Sorted (fun a b => a ≤ b) (List.insertionSort (fun a b => a ≤ b) xs) :=
    List.sorted_insertionSort (fun a b => a ≤ b) xs
  have hlen : (List.insertionSort (fun a b => a ≤ b) xs).length = xs.length :=
    (List.perm_insertionSort (fun a b => a ≤ b) xs).length_eq
  simp only [percentile]
  set s := List.insertionSort (fun a b => a ≤ b) xs with hsdef
  set n := s.length with hndef
  have hn1 : 1 ≤ n := by rw [hlen]; exact hn
  have hnq : (0 : ℚ) ≤ (n : ℚ) - 1 := by
    have : (1 : ℚ) ≤ (n : ℚ) := by exact_mod_cast hn1
    linarith
  set pos1 := q1 * ((n : ℚ) - 1) / 100 with hpos1def
  set pos2 := q2 * ((n : ℚ) - 1) / 100 with hpos2def
  have hpos12 : pos1 ≤ pos2 := by
    rw [hpos1def, hpos2def]
    have := mul_le_mul_of_nonneg_right h12 hnq
    linarith
  have hpos10 : 0 ≤ pos1 := by
    rw [hpos1def]
    positivity
  have hpos2ub : pos2 ≤ (n : ℚ) - 1 := by
    rw [hpos2def]
    have h1 : q2 * ((n : ℚ) - 1) ≤ 100 * ((n : ℚ) - 1) :=
      mul_le_mul_of_nonneg_right h100 hnq
    linarith
  have hfl2 : ⌊pos2⌋ ≤ (n : ℤ) - 1 := by
    have h1 : ⌊pos2⌋ ≤ ⌊(n : ℚ) - 1⌋ := Int.floor_le_floor hpos2ub
    have h2 : ((n : ℚ) - 1) = (((n : ℤ) - 1 : ℤ) : ℚ) := by push_cast; ring
    rw [h2, Int.floor_intCast] at h1
    exact h1
  have hfl10 : 0 ≤ ⌊pos1⌋ := Int.floor_nonneg.mpr hpos10
  have hfl20 : 0 ≤ ⌊pos2⌋ := Int.floor_nonneg.mpr (le_trans hpos10 hpos12)
  set i1 := (⌊pos1⌋).toNat with hi1def
  set i2 := (⌊pos2⌋).toNat with hi2def
  have hi12 : i1 ≤ i2 :=
    Int.toNat_le_toNat (Int.floor_le_floor hpos12)
  have hi2n : i2 < n := by
    rw [hi2def]
    omega
  have hi1n : i1 < n := lt_of_le_of_lt hi12 hi2n
  set j1 := min (i1 + 1) (n - 1) with hj1def
  set j2 := min (i2 + 1) (n - 1) with hj2def
  have hj1n : j1 < n := by omega
  have hj2n : j2 < n := by omega
  have hij1 : i1 ≤ j1 := by omega
  have hij2 : i2 ≤ j2 := by omega
  have hfrac10 : 0 ≤ pos1 - ⌊pos1⌋ := sub_nonneg.mpr (Int.floor_le pos1)
  have hfrac11 : pos1 - ⌊pos1⌋ < 1 := by
    have := Int.lt_floor_add_one pos1
    push_cast at this ⊢
    linarith
  have hfrac20 : 0 ≤ pos2 - ⌊pos2⌋ := sub_nonneg.mpr (Int.floor_le pos2)
  have hs1 : s.getD i1 0 ≤ s.getD j1 0 := sorted_getD_mono hs hij1 hj1n
  have hs2 : s.getD i2 0 ≤ s.getD j2 0 := sorted_getD_mono hs hij2 hj2n
  rcases eq_or_lt_of_le hi12 with heq | hlt
  · have hfleq : ⌊pos1⌋ = ⌊pos2⌋ := by omega
    have hjeq : j1 = j2 := by rw [hj1def, hj2def, heq]
    have hfrac12 : pos1 - ⌊pos1⌋ ≤ pos2 - ⌊pos2⌋ := by
      rw [← hfleq]
      linarith
    rw [heq, hjeq]
    have hkey := mul_le_mul_of_nonneg_right hfrac12 (sub_nonneg.mpr hs2)
    linarith
  · have hstep : i1 + 1 ≤ i2 := hlt
    have hj1i2 : j1 ≤ i2 := le_trans (min_le_left _ _) hstep
    have hmid : s.getD j1 0 ≤ s.getD i2 0 := sorted_getD_mono hs hj1i2 hi2n
    have hup : s.getD i1 0 + (pos1 - ⌊pos1⌋) * (s.getD j1 0 - s.getD i1 0) ≤
        s.getD j1 0 := by
      have hkey := mul_nonneg (by linarith : (0 : ℚ) ≤ 1 - (pos1 - ⌊pos1⌋))
        (sub_nonneg.mpr hs1)
      nlinarith
    have hlo : s.getD i2 0 ≤
        s.getD i2 0 + (pos2 - ⌊pos2⌋) * (s.getD j2 0 - s.getD i2 0) := by
      have hkey := mul_nonneg hfrac20 (sub_nonneg.mpr hs2)
      linarith
    linarith

/-- C7: on a return series of at least 10 points, `calc_var` at the default
confidence levels returns the keys 95 and 99 with
`var_99 ≤ var_95` — the 99%-confidence VaR (the 1st percentile, rounded)
is at most the 95%-confidence VaR (the 5th percentile, rounded). -/
theorem calc_var_default_ordering (rs : List ℚ) (h10 : 10 ≤ rs.length) :
    calc_var rs defaultConfidenceLevels =
        [(95, some (pyRound (percentile rs ((1 - 19/20) * 100) * 100) 4)),
         (99, some (pyRound (percentile rs ((1 - 99/100) * 100) * 100) 4))] ∧
      pyRound (percentile rs ((1 - 99/100) * 100) * 100) 4 ≤
        pyRound (percentile rs ((1 - 19/20) * 100) * 100) 4 := by
  constructor
  · unfold calc_var
    rw [if_neg (by omega)]
    norm_num [defaultConfidenceLevels, dictInsert, pyInt]
  · apply pyRound_mono
    apply mul_le_mul_of_nonneg_right _ (by norm_num : (0 : ℚ) ≤ 100)
    have h1 : ((1 : ℚ) - 99/100) * 100 = 1 := by norm_num
    have h5 : ((1 : ℚ) - 19/20) * 100 = 5 := by norm_num
    rw [h1, h5]
    exact percentile_mono rs (by omega) (by norm_num) (by norm_num) (by norm_num)

/-- Witness for C7 on the ten-point return series 1..10. -/
theorem calc_var_default_ordering_witness :
    10 ≤ ([1, 2, 3, 4, 5, 6, 7, 8, 9, 10] : List ℚ).length ∧
      (calc_var [1, 2, 3, 4, 5, 6, 7, 8, 9, 10] defaultConfidenceLevels =
          [(95, some (pyRound (percentile [1, 2, 3, 4, 5, 6, 7, 8, 9, 10]
              ((1 - 19/20) * 100) * 100) 4)),
           (99, some (pyRound (percentile [1, 2, 3, 4, 5, 6, 7, 8, 9, 10]
              ((1 - 99/100) * 100) * 100) 4))] ∧
        pyRound (percentile [1, 2, 3, 4, 5, 6, 7, 8, 9, 10]
            ((1 - 99/100) * 100) * 100) 4 ≤
          pyRound (percentile [1, 2, 3, 4, 5, 6, 7, 8, 9, 10]
            ((1 - 19/20) * 100) * 100) 4) :=
  ⟨by norm_num,
    calc_var_default_ordering [1, 2, 3, 4, 5, 6, 7, 8, 9, 10] (by norm_num)⟩

/-- C10: the truncated-percentage key collision of `calc_var`: the two
distinct valid levels 0.95 and 0.955 share the key `int(level*100) = 95`,
so the returned mapping holds a single entry for both, containing the VaR
of the later level (0.955, the 4.5th percentile); the result for 0.95 is
silently dropped. -/
theorem calc_var_key_collision (rs : List ℚ) (h10 : 10 ≤ rs.length) :
    (19/20 : ℚ) ≠ 191/200 ∧
      pyInt ((19/20 : ℚ) * 100) = pyInt ((191/200 : ℚ) * 100) ∧
      calc_var rs [19/20, 191/200] =
        [(95, some (pyRound (percentile rs ((1 - 191/200) * 100) * 100) 4))] := by
  refine ⟨by norm_num, by norm_num [pyInt], ?_⟩
  unfold calc_var
  rw [if_neg (by omega)]
  norm_num [dictInsert, pyInt]

/-- Witness for C10 on the ten-point return series 1..10. -/
theorem calc_var_key_collision_witness :
    10 ≤ ([1, 2, 3, 4, 5, 6, 7, 8, 9, 10] : List ℚ).length ∧
      ((19/20 : ℚ) ≠ 191/200 ∧
        pyInt ((19/20 : ℚ) * 100) = pyInt ((191/200 : ℚ) * 100) ∧
        calc_var [1, 2, 3, 4, 5, 6, 7, 8, 9, 10] [19/20, 191/200] =
          [(95, some (pyRound (percentile [1, 2, 3, 4, 5, 6, 7, 8, 9, 10]
              ((1 - 191/200) * 100) * 100) 4))]) :=
  ⟨by norm_num,
    calc_var_key_collision [1, 2, 3, 4, 5, 6, 7, 8, 9, 10] (by norm_num)⟩

/-! ## Portfolio volatility  (`calc_portfolio_volatility`, risk.py:172-213) -/

/-- Arithmetic mean of a list (`Series.mean`). -/
def sampleMean (xs : List ℚ) : ℚ := xs.sum / xs.length

/-- One entry of `DataFrame.cov()`: sample covariance with denominator
`n - 1` (pandas' default `ddof = 1`). -/
def sampleCov (xs ys : List ℚ) : ℚ :=
  (List.zipWith (fun x y => (x - sampleMean xs) * (y - sampleMean ys)) xs ys).sum
    / ((xs.length : ℚ) - 1)

/-- Sample variance: the square of `DataFrame.std()`. -/
def sampleVar (xs : List ℚ) : ℚ := sampleCov xs xs

/-- The quantity `port_variance = w @ (df.cov() * 252).values @ w` over the aligned
return columns `df` (risk.py:199-201). -/
def portVariance (n : ℕ) (df : Fin n → List ℚ) (w : Fin n → ℚ) : ℚ :=
  252 * ∑ i, ∑ j, w i * w j * sampleCov (df i) (df j)

lemma sampleVar_nonneg (xs : List ℚ) : 0 ≤ sampleVar xs := by
  unfold sampleVar sampleCov
  rcases Nat.eq_zero_or_pos xs.length with h0 | hpos
  · have hnil : xs = [] := List.length_eq_zero.mp h0
    subst hnil
    simp
  · apply div_nonneg
    · rw [List.zipWith_same]
      apply List.sum_nonneg
      intro x hx
      obtain ⟨y, _, hy⟩ := List.mem_map.mp hx
      rw [← hy]
      exact mul_self_nonneg _
    · have h1 : (1 : ℚ) ≤ (xs.length : ℚ) := by exact_mod_cast hpos
      linarith

/-- C8: whenever the aligned return matrix is a valid sample-covariance
input (pairwise correlations at most 1, as implied by correlations
strictly below 1) with positive weights summing to 1 and at least 10
aligned rows, the diversification benefit is non-negative: the portfolio
volatility `sqrt(port_variance)` is at most the undiversified volatility
`sum_i w_i * (std_i * sqrt 252)` computed by `calc_portfolio_volatility`. -/
theorem calc_portfolio_volatility_diversification (n m : ℕ)
    (df : Fin n → List ℚ) (w : Fin n → ℚ)
    (hlen : ∀ i, (df i).length = m) (hm : 10 ≤ m)
    (hw : ∀ i, 0 < w i) (hsum : ∑ i, w i = 1)
    (hcorr : ∀ i j, i ≠ j → ((sampleCov (df i) (df j) : ℚ) : ℝ) ≤
      Real.sqrt ((sampleVar (df i) : ℚ) : ℝ) * Real.sqrt ((sampleVar (df j) : ℚ) : ℝ)) :
    Real.sqrt ((portVariance n df w : ℚ) : ℝ) ≤
      ∑ i, (w i : ℝ) *
        (Real.sqrt ((sampleVar (df i) : ℚ) : ℝ) * Real.sqrt 252) := by
  have hw' : ∀ i, (0 : ℝ) ≤ (w i : ℝ) := fun i => by exact_mod_cast (hw i).le
  have hσ0 : ∀ i, 0 ≤ Real.sqrt ((sampleVar (df i) : ℚ) : ℝ) :=
    fun i => Real.sqrt_nonneg _
  have hcov_all : ∀ i j, ((sampleCov (df i) (df j) : ℚ) : ℝ) ≤
      Real.sqrt ((sampleVar (df i) : ℚ) : ℝ)
        * Real.sqrt ((sampleVar (df j) : ℚ) : ℝ) := by
    intro i j
    by_cases hij : i = j
    · subst hij
      have hv : (0 : ℝ) ≤ ((sampleVar (df i) : ℚ) : ℝ) := by
        exact_mod_cast sampleVar_nonneg (df i)
      rw [Real.mul_self_sqrt hv]
      exact le_of_eq rfl
    · exact hcorr i j hij
  have hcast : ((portVariance n df w : ℚ) : ℝ) =
      252 * ∑ i, ∑ j, (w i : ℝ) * (w j : ℝ)
        * ((sampleCov (df i) (df j) : ℚ) : ℝ) := by
    unfold portVariance
    push_cast
    ring
  have hsum_le : ∑ i, ∑ j, (w i : ℝ) * (w j : ℝ)
        * ((sampleCov (df i) (df j) : ℚ) : ℝ) ≤
      ∑ i, ∑ j, (w i : ℝ) * (w j : ℝ)
        * (Real.sqrt ((sampleVar (df i) : ℚ) : ℝ)
          * Real.sqrt ((sampleVar (df j) : ℚ) : ℝ)) :=
    Finset.sum_le_sum fun i _ => Finset.sum_le_sum fun j _ =>
      mul_le_mul_of_nonneg_left (hcov_all i j) (mul_nonneg (hw' i) (hw' j))
  have hid : (∑ i, (w i : ℝ) * Real.sqrt ((sampleVar (df i) : ℚ) : ℝ)) ^ 2 =
      ∑ i, ∑ j, (w i : ℝ) * (w j : ℝ)
        * (Real.sqrt ((sampleVar (df i) : ℚ) : ℝ)
          * Real.sqrt ((sampleVar (df j) : ℚ) : ℝ)) := by
    rw [sq, Finset.sum_mul_sum]
    refine Finset.sum_congr rfl fun i _ => Finset.sum_congr rfl fun j _ => by ring
  have hS0 : 0 ≤ ∑ i, (w i : ℝ) * Real.sqrt ((sampleVar (df i) : ℚ) : ℝ) :=
    Finset.sum_nonneg fun i _ => mul_nonneg (hw' i) (hσ0 i)
  have hbound : ((portVariance n df w : ℚ) : ℝ) ≤
      (Real.sqrt 252 *
        ∑ i, (w i : ℝ) * Real.sqrt ((sampleVar (df i) : ℚ) : ℝ)) ^ 2 := by
    rw [hcast, mul_pow, Real.sq_sqrt (by norm_num : (0 : ℝ) ≤ 252), hid]
    exact mul_le_mul_of_nonneg_left hsum_le (by norm_num)
  have hfin := Real.sqrt_le_sqrt hbound
  rw [Real.sqrt_sq (mul_nonneg (Real.sqrt_nonneg _) hS0)] at hfin
  have hswap : ∑ i, (w i : ℝ) *
      (Real.sqrt ((sampleVar (df i) : ℚ) : ℝ) * Real.sqrt 252) =
      Real.sqrt 252 * ∑ i, (w i : ℝ) * Real.sqrt ((sampleVar (df i) : ℚ) : ℝ) := by
    rw [Finset.mul_sum]
    exact Finset.sum_congr rfl fun i _ => by ring
  rw [hswap]
  exact hfin

/-- First witness return column for the portfolio-volatility claim. -/
def witColA : List ℚ := [1, -1, 0, 0, 0, 0, 0, 0, 0, 0]

/-- Second witness return column (orthogonal to the first). -/
def witColB : List ℚ := [0, 0, 1, -1, 0, 0, 0, 0, 0, 0]

/-- Witness aligned return matrix (two symbols, ten rows). -/
def witDf : Fin 2 → List ℚ := ![witColA, witColB]

/-- Witness weights (equal weighting). -/
def witW : Fin 2 → ℚ := ![1/2, 1/2]

lemma witCovAB : sampleCov witColA witColB = 0 := by
  norm_num [sampleCov, sampleMean, witColA, witColB]

lemma witCovBA : sampleCov witColB witColA = 0 := by
  norm_num [sampleCov, sampleMean, witColA, witColB]

/-- Witness for C8. -/
theorem calc_portfolio_volatility_diversification_witness :
    (∑ i, witW i) = 1 ∧
      Real.sqrt ((portVariance 2 witDf witW : ℚ) : ℝ) ≤
        ∑ i, (witW i : ℝ) *
          (Real.sqrt ((sampleVar (witDf i) : ℚ) : ℝ) * Real.sqrt 252) := by
  constructor
  · norm_num [witW, Fin.sum_univ_two]
  · apply calc_portfolio_volatility_diversification 2 10 witDf witW
    · intro i
      fin_cases i <;> rfl
    · norm_num
    · intro i
      fin_cases i <;> norm_num [witW]
    · norm_num [witW, Fin.sum_univ_two]
    · intro i j hij
      fin_cases i <;> fin_cases j
      · exact absurd rfl hij
      · show ((sampleCov witColA witColB : ℚ) : ℝ) ≤ _
        rw [witCovAB]
        push_cast
        positivity
      · show ((sampleCov witColB witColA : ℚ) : ℝ) ≤ _
        rw [witCovBA]
        push_cast
        positivity
      · exact absurd rfl hij

/-! ## Technical indicator engine  (`lib/technicals.py`) -/

/-- One OHLCV bar restricted to the fields `analyze` reads. -/
structure Bar where
  close : ℚ
  volume : ℚ

/-- MA-alignment classification (the three `ma_trend` label strings). -/
inductive MaTrend
  | bull
  | bear
  | mixed
deriving DecidableEq

/-- MACD cross type returned by `_find_cross`. -/
inductive CrossTag
  | golden
  | death
deriving DecidableEq

/-- The four `macd_status` label strings. -/
inductive MacdStatus
  | goldenCross (daysAgo : ℕ)
  | deathCross (daysAgo : ℕ)
  | bullRun
  | bearRun
deriving DecidableEq

/-- The three composite-signal label strings (their colours are determined
by the same branch). -/
inductive SignalTag
  | bullish
  | neutral
  | bearish
deriving DecidableEq

/-- The scoring weights `config.scoring_weights()` resolved through
`w.get(key, default)`. -/
structure ScoringWeights where
  rsi_strong : ℚ
  rsi_weak : ℚ
  macd_golden : ℚ
  macd_death : ℚ
  ma_bull : ℚ
  ma_bear : ℚ
  bb_upper : ℚ
  bb_lower : ℚ
  volume_up : ℚ

/-- The hard-coded defaults of the `w.get` calls in `analyze`. -/
def defaultWeights : ScoringWeights := ⟨5, -5, 15, -15, 15, -15, -5, 5, 10⟩

/-- The dict returned by `analyze` (technicals.py:154-164), with label
strings replaced by tags. -/
structure TechSnapshot where
  ma5 : ℚ
  ma10 : ℚ
  ma20 : ℚ
  ma20_dev : ℚ
  ma_trend : MaTrend
  rsi6 : ℚ
  rsi14 : ℚ
  dif : ℚ
  dea : ℚ
  macd_hist : ℚ
  macd_status : MacdStatus
  macd_cross : Option (CrossTag × ℕ)
  bb_upper : ℚ
  bb_mid : ℚ
  bb_lower : ℚ
  bb_position : ℚ
  vol_today : ℚ
  vol_5d : ℚ
  vol_ratio : ℚ
  score : ℚ
  signal : SignalTag

/-- The access `series.iloc[-1]` on a list of rationals. -/
def lastQ (l : List ℚ) : ℚ := l.getD (l.length - 1) 0

/-- The slice `series.iloc[-k:]`: the trailing `k` elements. -/
def lastN (k : ℕ) (l : List ℚ) : List ℚ := l.drop (l.length - k)

/-- The series `series.diff()` with the leading NaN already coerced to 0 by the
subsequent `.where(...)` masks (NaN compares false, so both the gain and
the loss mask replace it by 0). -/
def diffs (xs : List ℚ) : List ℚ :=
  match xs with
  | [] => []
  | _ :: t => 0 :: List.zipWith (fun b a => b - a) t xs

/-- The series `series.rolling(window=p).mean()`: `none` until the window is full,
then the mean of the trailing `p` entries. -/
def rollingMean (p : ℕ) (xs : List ℚ) : List (Option ℚ) :=
  (List.range xs.length).map fun i =>
    if p ≤ i + 1 then some (sampleMean ((xs.drop (i + 1 - p)).take p)) else none

/-- The function `calc_rsi` (technicals.py:11-16) as a full series: gains and losses
from the masked deltas, rolling means, the zero-loss denominator floored
to `1e-10`, and `100 - 100/(1+rs)`; `none` entries are the NaN positions
of the rolling windows. -/
def calc_rsi (xs : List ℚ) (period : ℕ) : List (Option ℚ) :=
  let d := diffs xs
  let gains := d.map fun x => if 0 < x then x else 0
  let losses := d.map fun x => if x < 0 then -x else 0
  List.zipWith (fun g l =>
      match g, l with
      | some gv, some lv =>
          some (100 - 100 / (1 + gv / (if lv = 0 then 1/10^10 else lv)))
      | _, _ => none)
    (rollingMean period gains) (rollingMean period losses)

/-- The value `float(series.iloc[-1])` of an option-valued series whose last entry
is defined (NaN coerced to 0 never occurs on the guarded paths). -/
def lastO (l : List (Option ℚ)) : ℚ := (l.getD (l.length - 1) none).getD 0

/-- The recursion of `series.ewm(span, adjust=False).mean()` after the first element:
`y_t = (1-a)*y_(t-1) + a*x_t`. -/
def ewmAux (a : ℚ) (prev : ℚ) : List ℚ → List ℚ
  | [] => []
  | x :: t => ((1 - a) * prev + a * x) :: ewmAux a ((1 - a) * prev + a * x) t

/-- The series `series.ewm(span=s, adjust=False).mean()` with `a = 2/(s+1)`. -/
def ewmMean (span : ℚ) (xs : List ℚ) : List ℚ :=
  match xs with
  | [] => []
  | x :: t => x :: ewmAux (2 / (span + 1)) x t

/-- The function `calc_macd` (technicals.py:19-25): `(dif, dea, histogram)`. -/
def calc_macd (xs : List ℚ) (fast slow sgn : ℚ) : List ℚ × List ℚ × List ℚ :=
  let dif := List.zipWith (fun a b => a - b) (ewmMean fast xs) (ewmMean slow xs)
  let dea := ewmMean sgn dif
  (dif, dea, List.zipWith (fun a b => a - b) dif dea)

/-- The scan of `_find_cross` (technicals.py:36-49): `i` counts bars back
from the end (1-based), `fuel` bounds the remaining lookback passes. -/
def findCrossGo (fast slow : List ℚ) : ℕ → ℕ → Option (CrossTag × ℕ)
  | _, 0 => none
  | i, fuel + 1 =>
      if i < min (5 + 1) fast.length then
        if fast.length < i + 1 then none
        else
          let n := fast.length
          let fNow := fast.getD (n - i) 0
          let fPrev := fast.getD (n - (i + 1)) 0
          let sNow := slow.getD (n - i) 0
          let sPrev := slow.getD (n - (i + 1)) 0
          if fPrev ≤ sPrev ∧ sNow < fNow then some (CrossTag.golden, i - 1)
          else if sPrev ≤ fPrev ∧ fNow < sNow then some (CrossTag.death, i - 1)
          else findCrossGo fast slow (i + 1) fuel
      else none

/-- The call `_find_cross(fast, slow)` with the default lookback of 5. -/
def find_cross (fast slow : List ℚ) : Option (CrossTag × ℕ) :=
  findCrossGo fast slow 1 5

/-- The body of `analyze` (technicals.py:60-164) once the 26-bar guard has
passed.  `sqrtQ` abstracts the machine square root used by the rolling
standard deviation of the Bollinger computation (ℚ has no exact square
root); every claim proved below holds for an arbitrary `sqrtQ`. -/
def analyzeCore (sqrtQ : ℚ → ℚ) (w : ScoringWeights) (bars : List Bar) :
    TechSnapshot :=
  let close := bars.map Bar.close
  let volume := bars.map Bar.volume
  let latest := lastQ close
  let ma5_val := sampleMean (lastN 5 close)
  let ma10_val := sampleMean (lastN 10 close)
  let ma20_val := sampleMean (lastN 20 close)
  let ma20_dev := if ma20_val = 0 then 0 else (latest - ma20_val) / ma20_val * 100
  let ma_trend := if ma10_val < ma5_val ∧ ma20_val < ma10_val then MaTrend.bull
    else if ma5_val < ma10_val ∧ ma10_val < ma20_val then MaTrend.bear
    else MaTrend.mixed
  let rsi6_val := lastO (calc_rsi close 6)
  let rsi14_val := lastO (calc_rsi close 14)
  let md := calc_macd close 12 26 9
  let dif_val := lastQ md.1
  let dea_val := lastQ md.2.1
  let hist_val := lastQ md.2.2
  let macd_cross := find_cross md.1 md.2.1
  let macd_status := match macd_cross with
    | some (CrossTag.golden, d) => MacdStatus.goldenCross d
    | some (CrossTag.death, d) => MacdStatus.deathCross d
    | none => if 0 < hist_val then MacdStatus.bullRun else MacdStatus.bearRun
  let bb_mid_val := sampleMean (lastN 20 close)
  let bb_std := sqrtQ (sampleVar (lastN 20 close))
  let bb_upper_val := bb_mid_val + 2 * bb_std
  let bb_lower_val := bb_mid_val - 2 * bb_std
  let bb_width := bb_upper_val - bb_lower_val
  let bb_position := if 0 < bb_width then (latest - bb_lower_val) / bb_width * 100
    else 50
  let vol_today := lastQ volume
  let vol_5d := sampleMean (lastN 5 volume)
  let vol_ratio := if 0 < vol_5d then vol_today / vol_5d else 1
  let score1 := if 60 < rsi14_val then 50 + w.rsi_strong
    else if rsi14_val < 40 then 50 + w.rsi_weak else 50
  let score2 := match macd_cross with
    | some (CrossTag.golden, _) => score1 + w.macd_golden
    | some (CrossTag.death, _) => score1 + w.macd_death
    | none => if 0 < hist_val then score1 + 5 else score1 - 5
  let score3 := match ma_trend with
    | MaTrend.bull => score2 + w.ma_bull
    | MaTrend.bear => score2 + w.ma_bear
    | MaTrend.mixed => score2
  let score4 := if 95 < bb_position then score3 + w.bb_upper
    else if bb_position < 5 then score3 + w.bb_lower else score3
  let score5 := if 3/2 < vol_ratio ∧
      close.getD (close.length - 2) 0 < close.getD (close.length - 1) 0
    then score4 + w.volume_up else score4
  let score := max 0 (min 100 score5)
  let signal := if 70 ≤ score then SignalTag.bullish
    else if 50 ≤ score then SignalTag.neutral else SignalTag.bearish
  { ma5 := ma5_val, ma10 := ma10_val, ma20 := ma20_val, ma20_dev := ma20_dev,
    ma_trend := ma_trend, rsi6 := rsi6_val, rsi14 := rsi14_val,
    dif := dif_val, dea := dea_val, macd_hist := hist_val,
    macd_status := macd_status, macd_cross := macd_cross,
    bb_upper := bb_upper_val, bb_mid := bb_mid_val, bb_lower := bb_lower_val,
    bb_position := bb_position, vol_today := vol_today, vol_5d := vol_5d,
    vol_ratio := vol_ratio, score := score, signal := signal }

/-- The function `analyze` (technicals.py:52-164): absent input or fewer than 26 bars
yields `None`; otherwise the populated snapshot. -/
def analyze (sqrtQ : ℚ → ℚ) (w : ScoringWeights) (hist : Option (List Bar)) :
    Option TechSnapshot :=
  match hist with
  | none => none
  | some bars => if bars.length < 26 then none else some (analyzeCore sqrtQ w bars)

lemma length_diffs (xs : List ℚ) : (diffs xs).length = xs.length := by
  cases xs with
  | nil => rfl
  | cons x t =>
    simp only [diffs, List.length_cons, List.length_zipWith]
    omega

lemma length_rollingMean (p : ℕ) (xs : List ℚ) :
    (rollingMean p xs).length = xs.length := by
  simp [rollingMean]

lemma length_calc_rsi (xs : List ℚ) (p : ℕ) :
    (calc_rsi xs p).length = xs.length := by
  simp only [calc_rsi, List.length_zipWith, length_rollingMean, List.length_map,
    length_diffs, min_self]

lemma rollingMean_getElem?_lt (p : ℕ) (xs : List ℚ) {i : ℕ} (hi : i < xs.length) :
    (rollingMean p xs)[i]? =
      some (if p ≤ i + 1 then
        some (sampleMean ((xs.drop (i + 1 - p)).take p)) else none) := by
  unfold rollingMean
  rw [List.getElem?_map, List.getElem?_range hi, Option.map_some']

lemma mean_window_nonneg {l : List ℚ} (hl : ∀ x ∈ l, 0 ≤ x) (a p : ℕ) :
    0 ≤ sampleMean ((l.drop a).take p) := by
  unfold sampleMean
  apply div_nonneg
  · exact List.sum_nonneg fun x hx =>
      hl x (List.mem_of_mem_drop (List.mem_of_mem_take hx))
  · exact Nat.cast_nonneg _

lemma masked_deltas_nonneg (d : List ℚ) :
    (∀ x ∈ d.map (fun x => if 0 < x then x else 0), 0 ≤ x) ∧
      (∀ x ∈ d.map (fun x => if x < 0 then -x else 0), 0 ≤ x) := by
  constructor <;> intro x hx <;> obtain ⟨y, _, hy⟩ := List.mem_map.mp hx <;>
    rw [← hy] <;> split_ifs with h <;> first | linarith | exact le_refl 0

lemma rsi_formula_bounds {gv lv : ℚ} (hg : 0 ≤ gv) (hl : 0 ≤ lv) :
    0 ≤ 100 - 100 / (1 + gv / (if lv = 0 then 1/10^10 else lv)) ∧
      100 - 100 / (1 + gv / (if lv = 0 then 1/10^10 else lv)) ≤ 100 := by
  have hden : 0 < (if lv = 0 then (1/10^10 : ℚ) else lv) := by
    split_ifs with h
    · norm_num
    · exact lt_of_le_of_ne hl (Ne.symm h)
  have hrs : 0 ≤ gv / (if lv = 0 then (1/10^10 : ℚ) else lv) := div_nonneg hg hden.le
  have h1 : (0 : ℚ) < 1 + gv / (if lv = 0 then (1/10^10 : ℚ) else lv) := by linarith
  have h2 : 100 / (1 + gv / (if lv = 0 then (1/10^10 : ℚ) else lv)) ≤ 100 :=
    div_le_self (by norm_num) (by linarith)
  have h3 : 0 < 100 / (1 + gv / (if lv = 0 then (1/10^10 : ℚ) else lv)) :=
    div_pos (by norm_num) h1
  exact ⟨by linarith, by linarith⟩

/-- Any defined entry of the RSI series lies in [0, 100]. -/
lemma calc_rsi_entry_bounds (xs : List ℚ) (p i : ℕ) (v : ℚ)
    (h : (calc_rsi xs p)[i]? = some (some v)) : 0 ≤ v ∧ v ≤ 100 := by
  have hi : i < xs.length := by
    by_contra hc
    rw [List.getElem?_eq_none (by rw [length_calc_rsi]; omega)] at h
    exact Option.noConfusion h
  have hglen : i < ((diffs xs).map (fun x => if 0 < x then x else 0)).length := by
    rw [List.length_map, length_diffs]; exact hi
  have hllen : i < ((diffs xs).map (fun x => if x < 0 then -x else 0)).length := by
    rw [List.length_map, length_diffs]; exact hi
  simp only [calc_rsi] at h
  rw [List.getElem?_zipWith', rollingMean_getElem?_lt _ _ hglen,
    rollingMean_getElem?_lt _ _ hllen] at h
  by_cases hcond : p ≤ i + 1
  · rw [if_pos hcond, if_pos hcond] at h
    simp only [Option.map_some', Option.some_bind] at h
    have hval := Option.some_injective _ h
    obtain ⟨hgm, hlm⟩ := masked_deltas_nonneg (diffs xs)
    have hb := rsi_formula_bounds (mean_window_nonneg hgm (i + 1 - p) p)
      (mean_window_nonneg hlm (i + 1 - p) p)
    have hv : (100 : ℚ) - 100 / (1 +
        sampleMean ((((diffs xs).map (fun x => if 0 < x then x else 0)).drop
          (i + 1 - p)).take p) /
        (if sampleMean ((((diffs xs).map (fun x => if x < 0 then -x else 0)).drop
          (i + 1 - p)).take p) = 0 then 1/10^10 else
          sampleMean ((((diffs xs).map (fun x => if x < 0 then -x else 0)).drop
            (i + 1 - p)).take p))) = v := by
      exact Option.some_injective _ hval
    rw [← hv]
    exact hb
  · rw [if_neg hcond, if_neg hcond] at h
    simp only [Option.map_some', Option.some_bind] at h
    exact Option.noConfusion (Option.some_injective _ h)

/-- The last RSI value is defined and lies in [0, 100] once the series
fills the rolling window. -/
lemma calc_rsi_lastO_bounds (xs : List ℚ) (p : ℕ) (hp : 1 ≤ p)
    (hlen : p ≤ xs.length) :
    0 ≤ lastO (calc_rsi xs p) ∧ lastO (calc_rsi xs p) ≤ 100 := by
  have hn1 : 1 ≤ xs.length := le_trans hp hlen
  have hi : xs.length - 1 < xs.length := by omega
  have hglen : xs.length - 1 <
      ((diffs xs).map (fun x => if 0 < x then x else 0)).length := by
    rw [List.length_map, length_diffs]; exact hi
  have hllen : xs.length - 1 <
      ((diffs xs).map (fun x => if x < 0 then -x else 0)).length := by
    rw [List.length_map, length_diffs]; exact hi
  have hcond : p ≤ xs.length - 1 + 1 := by omega
  have hentry : (calc_rsi xs p)[xs.length - 1]? =
      some (some (100 - 100 / (1 +
        sampleMean ((((diffs xs).map (fun x => if 0 < x then x else 0)).drop
          (xs.length - 1 + 1 - p)).take p) /
        (if sampleMean ((((diffs xs).map (fun x => if x < 0 then -x else 0)).drop
          (xs.length - 1 + 1 - p)).take p) = 0 then 1/10^10 else
          sampleMean ((((diffs xs).map (fun x => if x < 0 then -x else 0)).drop
            (xs.length - 1 + 1 - p)).take p))))) := by
    simp only [calc_rsi]
    rw [List.getElem?_zipWith', rollingMean_getElem?_lt _ _ hglen,
      rollingMean_getElem?_lt _ _ hllen, if_pos hcond, if_pos hcond]
    rfl
  have hlast : lastO (calc_rsi xs p) = 100 - 100 / (1 +
      sampleMean ((((diffs xs).map (fun x => if 0 < x then x else 0)).drop
        (xs.length - 1 + 1 - p)).take p) /
      (if sampleMean ((((diffs xs).map (fun x => if x < 0 then -x else 0)).drop
        (xs.length - 1 + 1 - p)).take p) = 0 then 1/10^10 else
        sampleMean ((((diffs xs).map (fun x => if x < 0 then -x else 0)).drop
          (xs.length - 1 + 1 - p)).take p))) := by
    unfold lastO
    rw [length_calc_rsi, List.getD_eq_getElem?_getD, hentry]
    rfl
  rw [hlast]
  obtain ⟨hgm, hlm⟩ := masked_deltas_nonneg (diffs xs)
  exact rsi_formula_bounds (mean_window_nonneg hgm _ p) (mean_window_nonneg hlm _ p)

/-- C4: `analyze` returns an absent result exactly when the series is
absent or has fewer than 26 bars; on at least 26 bars it returns a
populated snapshot.  The embedding is total, reflecting that no exception
escapes `analyze` (every division in the body is guarded). -/
theorem analyze_insufficient_data_iff (sq : ℚ → ℚ) (w : ScoringWeights)
    (h : Option (List Bar)) :
    analyze sq w h = none ↔ h.elim True (fun bars => bars.length < 26) := by
  cases h with
  | none => simp [analyze]
  | some bars =>
    simp only [analyze, Option.elim]
    split_ifs with hc
    · simp [hc]
    · simp [hc]

/-- C5: every defined entry of the RSI series computed by `calc_rsi` lies
in [0, 100] (the zero-loss denominator is floored to 1e-10), and on any
series of at least 26 bars the rsi6/rsi14 fields of the snapshot returned
by `analyze` lie in [0, 100]. -/
theorem calc_rsi_bounds_claim :
    (∀ (xs : List ℚ) (p : ℕ), ∀ o ∈ calc_rsi xs p, ∀ v, o = some v →
      0 ≤ v ∧ v ≤ 100) ∧
    (∀ (sq : ℚ → ℚ) (w : ScoringWeights) (bars : List Bar), 26 ≤ bars.length →
      analyze sq w (some bars) = some (analyzeCore sq w bars) ∧
      (0 ≤ (analyzeCore sq w bars).rsi6 ∧ (analyzeCore sq w bars).rsi6 ≤ 100) ∧
      (0 ≤ (analyzeCore sq w bars).rsi14 ∧
        (analyzeCore sq w bars).rsi14 ≤ 100)) := by
  constructor
  · intro xs p o ho v hv
    obtain ⟨i, hi⟩ := List.mem_iff_getElem?.mp ho
    subst hv
    exact calc_rsi_entry_bounds xs p i v hi
  · intro sq w bars h26
    have hlen : (bars.map Bar.close).length = bars.length := List.length_map ..
    have hr6 : (analyzeCore sq w bars).rsi6 =
        lastO (calc_rsi (bars.map Bar.close) 6) := rfl
    have hr14 : (analyzeCore sq w bars).rsi14 =
        lastO (calc_rsi (bars.map Bar.close) 14) := rfl
    refine ⟨?_, ?_, ?_⟩
    · simp only [analyze]
      rw [if_neg (by omega)]
    · rw [hr6]
      exact calc_rsi_lastO_bounds _ 6 (by norm_num) (by omega)
    · rw [hr14]
      exact calc_rsi_lastO_bounds _ 14 (by norm_num) (by omega)

/-- C9: on at least 26 bars the snapshot's volume ratio is today's volume
divided by the mean volume of the trailing 5 bars, and 1.0 when that
trailing mean is zero. -/
theorem analyze_volume_ratio (sq : ℚ → ℚ) (w : ScoringWeights) (bars : List Bar)
    (h26 : 26 ≤ bars.length) :
    analyze sq w (some bars) = some (analyzeCore sq w bars) ∧
      (analyzeCore sq w bars).vol_today = lastQ (bars.map Bar.volume) ∧
      (analyzeCore sq w bars).vol_5d = sampleMean (lastN 5 (bars.map Bar.volume)) ∧
      (0 < sampleMean (lastN 5 (bars.map Bar.volume)) →
        (analyzeCore sq w bars).vol_ratio =
          lastQ (bars.map Bar.volume) / sampleMean (lastN 5 (bars.map Bar.volume))) ∧
      (sampleMean (lastN 5 (bars.map Bar.volume)) = 0 →
        (analyzeCore sq w bars).vol_ratio = 1) := by
  have hvr : (analyzeCore sq w bars).vol_ratio =
      if 0 < sampleMean (lastN 5 (bars.map Bar.volume)) then
        lastQ (bars.map Bar.volume) / sampleMean (lastN 5 (bars.map Bar.volume))
      else 1 := rfl
  refine ⟨?_, rfl, rfl, ?_, ?_⟩
  · simp only [analyze]
    rw [if_neg (by omega)]
  · intro h
    rw [hvr, if_pos h]
  · intro h
    rw [hvr, if_neg (by rw [h]; exact lt_irrefl 0)]

/-- A 26-bar constant series used by the technical-indicator witnesses. -/
def bars26 : List Bar := List.replicate 26 ⟨1, 1⟩

/-- Witness for C5 on 26 constant bars (with the trivial square root). -/
theorem calc_rsi_bounds_claim_witness :
    26 ≤ bars26.length ∧
      (analyze (fun _ => 0) defaultWeights (some bars26) =
          some (analyzeCore (fun _ => 0) defaultWeights bars26) ∧
        (0 ≤ (analyzeCore (fun _ => 0) defaultWeights bars26).rsi6 ∧
          (analyzeCore (fun _ => 0) defaultWeights bars26).rsi6 ≤ 100) ∧
        (0 ≤ (analyzeCore (fun _ => 0) defaultWeights bars26).rsi14 ∧
          (analyzeCore (fun _ => 0) defaultWeights bars26).rsi14 ≤ 100)) :=
  ⟨by simp [bars26],
    calc_rsi_bounds_claim.2 (fun _ => 0) defaultWeights bars26 (by simp [bars26])⟩

/-- Witness for C9 on 26 constant bars (with the trivial square root). -/
theorem analyze_volume_ratio_witness :
    26 ≤ bars26.length ∧
      (analyze (fun _ => 0) defaultWeights (some bars26) =
          some (analyzeCore (fun _ => 0) defaultWeights bars26) ∧
        (analyzeCore (fun _ => 0) defaultWeights bars26).vol_today =
          lastQ (bars26.map Bar.volume) ∧
        (analyzeCore (fun _ => 0) defaultWeights bars26).vol_5d =
          sampleMean (lastN 5 (bars26.map Bar.volume)) ∧
        (0 < sampleMean (lastN 5 (bars26.map Bar.volume)) →
          (analyzeCore (fun _ => 0) defaultWeights bars26).vol_ratio =
            lastQ (bars26.map Bar.volume) /
              sampleMean (lastN 5 (bars26.map Bar.volume))) ∧
        (sampleMean (lastN 5 (bars26.map Bar.volume)) = 0 →
          (analyzeCore (fun _ => 0) defaultWeights bars26).vol_ratio = 1)) :=
  ⟨by simp [bars26],
    analyze_volume_ratio (fun _ => 0) defaultWeights bars26 (by simp [bars26])⟩
